import Mathlib

/-!
Verification of the minigrep core (src/lib.rs) against its specification.

Strings are embedded as lists of characters. Rust `str::lines` is modelled
by `lines` below: split on the newline character, drop a trailing empty
segment produced by a terminating newline, and strip one trailing carriage
return from every newline-terminated segment; a carriage return not
followed by a newline is kept, so a bare trailing carriage return stays in
the final line. Rust `str::contains` is modelled by `containsSub`,
and `str::to_lowercase` by character-wise lowercasing (`toLowercase`); the
spec itself (§9) leaves the exact Unicode case-folding rule open.
-/

namespace Minigrep

/-- Splits a character list at each newline character, keeping every
segment (including empty ones); the result is always nonempty, mirroring
how Rust `split('\n')` behaves. -/
def splitNl : List Char → List (List Char)
  | [] => [[]]
  | c :: cs =>
    if c = '\n' then [] :: splitNl cs
    else
      match splitNl cs with
      | [] => [[c]]
      | s :: ss => (c :: s) :: ss

/-- Strips one trailing carriage return, as Rust `str::lines` does for a
segment that was terminated by a newline (a `\r\n` line ending). -/
def stripCR (l : List Char) : List Char :=
  if l.getLast? = some '\r' then l.dropLast else l

/-- Model of Rust `str::lines`: split at newlines; every segment except
the last was terminated by a newline and loses one trailing carriage
return; the final segment is empty exactly when the input is empty or
ends with a newline — then it is dropped (the final line ending is
optional) — and otherwise it is the unterminated last line, kept intact,
so a carriage return not followed by a newline stays in its line. -/
def lines (contents : List Char) : List (List Char) :=
  let segs := splitNl contents
  let body := segs.dropLast.map stripCR
  match segs.getLast? with
  | none => body
  | some lastSeg => if lastSeg = [] then body else body ++ [lastSeg]

/-- Model of Rust `str::contains` for string patterns: `containsSub hay need`
is true when `need` occurs contiguously inside `hay`. -/
def containsSub : List Char → List Char → Bool
  | [], need => need.isEmpty
  | a :: t, need => need.isPrefixOf (a :: t) || containsSub t need

/-- Model of Rust `str::to_lowercase`, as character-wise lowercasing (one
fixed case-folding rule, as the spec §9 requires the implementer to pick). -/
def toLowercase (s : List Char) : List Char :=
  s.map Char.toLower

/-- Embedding of `search` (src/lib.rs lines 82-87): keep, in order, the
lines of `contents` that contain `query`. -/
def search (query contents : List Char) : List (List Char) :=
  (lines contents).filter (fun line => containsSub line query)

/-- Embedding of `search_case_insensitive` (src/lib.rs lines 102-109):
lowercase the query once, keep the original lines whose lowercasing
contains it. -/
def search_case_insensitive (query contents : List Char) : List (List Char) :=
  let query := toLowercase query
  (lines contents).filter (fun line => containsSub (toLowercase line) query)

/-- An environment variable's OS-level value: either valid Unicode text or
a non-Unicode byte sequence (whose bytes the model does not need). -/
inductive OsValue where
  | unicode (value : List Char) : OsValue
  | nonUnicode : OsValue
deriving DecidableEq

/-- The error type of Rust `std::env::var`. -/
inductive VarError where
  | notPresent : VarError
  | notUnicode : VarError
deriving DecidableEq

/-- Model of Rust `std::env::var`: the environment is a lookup from names
to optional OS values; a present non-Unicode value is an error, as is an
absent variable. -/
def envVar (env : String → Option OsValue) (name : String) :
    Except VarError (List Char) :=
  match env name with
  | none => .error .notPresent
  | some (.unicode v) => .ok v
  | some .nonUnicode => .error .notUnicode

/-- Model of `Result::is_err`. -/
def exceptIsErr {ε α : Type} : Except ε α → Bool
  | .error _ => true
  | .ok _ => false

/-- Embedding of the `Config` struct (src/lib.rs lines 9-13). -/
structure Config where
  query : List Char
  filename : List Char
  case_sensitive : Bool
deriving DecidableEq

/-- Embedding of `Config::new` (src/lib.rs lines 16-36): discard the first
argument (the program name), take the next two as query and file name,
failing with the source's error strings when they are missing; case
sensitivity holds exactly when `env::var("CASE_INSENSITIVE")` errors. -/
def Config.new (args : List (List Char)) (env : String → Option OsValue) :
    Except String Config :=
  let rest := args.tail
  match rest with
  | [] => .error "Didn't get a query string"
  | query :: rest2 =>
    match rest2 with
    | [] => .error "Didn't get a file name"
    | filename :: _ =>
      let case_sensitive := exceptIsErr (envVar env "CASE_INSENSITIVE")
      .ok ⟨query, filename, case_sensitive⟩

/-- Embedding of `run` (src/lib.rs lines 54-68). The file system is an
explicit capability `fs` modelling `fs::read_to_string` (it may fail with
an error string). The returned pair is the `Result` of `run` together with
the lines printed to standard output; on a read failure the error is
propagated by `?` before any line is printed. -/
def run (fs : List Char → Except String (List Char)) (config : Config) :
    Except String Unit × List (List Char) :=
  match fs config.filename with
  | .error e => (.error e, [])
  | .ok contents =>
    let results :=
      if config.case_sensitive then search config.query contents
      else search_case_insensitive config.query contents
    (.ok (), results)

/-! Helper lemmas about the line-splitting model. -/

/-- Splitting never produces an empty list of segments. -/
theorem splitNl_ne_nil (c : List Char) : splitNl c ≠ [] := by
  cases c with
  | nil => simp [splitNl]
  | cons a t =>
    simp only [splitNl]
    split
    · simp
    · split <;> simp

/-- Unfolding equation for a leading newline. -/
theorem splitNl_cons_newline (t : List Char) :
    splitNl ('\n' :: t) = [] :: splitNl t := by
  simp [splitNl]

/-- Unfolding equation for a leading non-newline character. -/
theorem splitNl_cons_other {a : Char} (ha : a ≠ '\n') {t s : List Char}
    {ss : List (List Char)} (hs : splitNl t = s :: ss) :
    splitNl (a :: t) = (a :: s) :: ss := by
  simp [splitNl, if_neg ha, hs]

/-- Appending a newline terminates the last segment and opens a fresh
empty one. -/
theorem splitNl_append_newline (c : List Char) :
    splitNl (c ++ ['\n']) = splitNl c ++ [[]] := by
  induction c with
  | nil => rfl
  | cons a t ih =>
    by_cases h : a = '\n'
    · subst h
      rw [List.cons_append, splitNl_cons_newline, splitNl_cons_newline, ih]
      rfl
    · cases hs : splitNl t with
      | nil => exact absurd hs (splitNl_ne_nil t)
      | cons s ss =>
        have h2 : splitNl (t ++ ['\n']) = s :: (ss ++ [[]]) := by
          rw [ih, hs]
          rfl
        rw [List.cons_append, splitNl_cons_other h h2, splitNl_cons_other h hs]
        rfl

/-- For a nonempty input not ending in a newline, the last segment is the
nonempty unterminated final line, and it ends in the input's last
character. -/
theorem splitNl_getLast_seg (c : List Char) :
    c ≠ [] → c.getLast? ≠ some '\n' →
    ∃ s, (splitNl c).getLast? = some s ∧ s ≠ [] ∧ s.getLast? = c.getLast? := by
  induction c with
  | nil => intro h _; exact absurd rfl h
  | cons a t ih =>
    intro _ hlast
    cases t with
    | nil =>
      have ha : a ≠ '\n' := by simpa using hlast
      rw [splitNl_cons_other ha (show splitNl [] = [] :: [] from rfl)]
      exact ⟨[a], by simp, by simp, rfl⟩
    | cons b t' =>
      have hlast' : (b :: t').getLast? ≠ some '\n' := by
        simpa [List.getLast?_cons_cons] using hlast
      obtain ⟨s, hs, hsne, hslast⟩ := ih (by simp) hlast'
      have hc : (a :: b :: t').getLast? = (b :: t').getLast? :=
        List.getLast?_cons_cons
      cases hsp : splitNl (b :: t') with
      | nil => exact absurd hsp (splitNl_ne_nil _)
      | cons s0 ss =>
        rw [hsp] at hs
        by_cases h : a = '\n'
        · subst h
          rw [splitNl_cons_newline, hsp]
          refine ⟨s, ?_, hsne, by rw [hc]; exact hslast⟩
          rw [List.getLast?_cons_cons]
          exact hs
        · rw [splitNl_cons_other h hsp]
          cases ss with
          | nil =>
            have hss : s0 = s := by simpa using hs
            refine ⟨a :: s, ?_, by simp, ?_⟩
            · rw [hss]
              simp
            · rw [hc, ← hslast]
              obtain ⟨x, xs, rfl⟩ := List.exists_cons_of_ne_nil hsne
              exact List.getLast?_cons_cons
          | cons s2 ss2 =>
            refine ⟨s, ?_, hsne, by rw [hc]; exact hslast⟩
            rw [List.getLast?_cons_cons]
            exact hs

/-- For nonempty input ending in neither a newline nor a carriage return,
appending a newline does not change the sequence of lines. -/
theorem lines_append_newline (c : List Char) (hne : c ≠ [])
    (hlast : c.getLast? ≠ some '\n') (hcr : c.getLast? ≠ some '\r') :
    lines (c ++ ['\n']) = lines c := by
  obtain ⟨s, hg, hsne, hslast⟩ := splitNl_getLast_seg c hne hlast
  obtain ⟨L, hL⟩ := List.getLast?_eq_some_iff.mp hg
  have hstrip : stripCR s = s := by
    have hns : s.getLast? ≠ some '\r' := by
      rw [hslast]
      exact hcr
    simp [stripCR, hns]
  have hLHS : lines (c ++ ['\n']) = (splitNl c).map stripCR := by
    simp [lines, splitNl_append_newline, List.getLast?_concat,
      List.dropLast_concat]
  have hRHS : lines c = L.map stripCR ++ [s] := by
    simp [lines, hL, List.getLast?_concat, List.dropLast_concat, hsne]
  rw [hLHS, hRHS, hL, List.map_append]
  simp [hstrip]

/-- Input without any newline character is a single segment. -/
theorem splitNl_of_no_newline (c : List Char) (h : '\n' ∉ c) :
    splitNl c = [c] := by
  induction c with
  | nil => rfl
  | cons a t ih =>
    have ha : a ≠ '\n' := by
      intro e
      subst e
      exact h (List.mem_cons_self _ _)
    have ht : '\n' ∉ t := fun m => h (List.mem_cons_of_mem _ m)
    simp [splitNl, if_neg ha, ih ht]

/-- A nonempty input with no newline is a single, unterminated line, kept
verbatim (in particular a bare trailing carriage return stays). -/
theorem lines_of_no_newline (c : List Char) (hne : c ≠ []) (h : '\n' ∉ c) :
    lines c = [c] := by
  simp [lines, splitNl_of_no_newline c h, List.getLast?_singleton, hne]

/-! Helper lemmas about substring containment. -/

/-- The empty pattern is contained in every string. -/
theorem containsSub_nil_true (hay : List Char) : containsSub hay [] = true := by
  cases hay with
  | nil => rfl
  | cons a t => simp [containsSub, List.isPrefixOf]

/-- Containment agrees with the mathematical contiguous-substring relation. -/
theorem containsSub_infix_iff (hay need : List Char) :
    containsSub hay need = true ↔ need <:+: hay := by
  induction hay with
  | nil => simp [containsSub, List.isEmpty_iff, List.infix_nil]
  | cons a t ih =>
    simp [containsSub, List.isPrefixOf_iff_prefix, ih, List.infix_cons_iff]

/-- Boolean form of the previous lemma. -/
theorem containsSub_eq_decide (hay need : List Char) :
    containsSub hay need = decide (need <:+: hay) := by
  apply Bool.eq_iff_iff.mpr
  rw [containsSub_infix_iff]
  simp

/-! Helper lemmas locating lines inside the original document. -/

/-- A prefix is in particular a contiguous span. -/
theorem infix_of_pref {l₁ l₂ : List Char} (h : l₁ <+: l₂) : l₁ <:+: l₂ :=
  List.IsPrefix.isInfix h

/-- The first segment of a split is a prefix of the input and every later
segment is a contiguous span of it. -/
theorem splitNl_head_tail (c : List Char) :
    ∃ s ss, splitNl c = s :: ss ∧ s <+: c ∧ ∀ x ∈ ss, x <:+: c := by
  induction c with
  | nil => exact ⟨[], [], rfl, List.nil_prefix, by simp⟩
  | cons a t ih =>
    obtain ⟨s, ss, hs, hpre, hinf⟩ := ih
    by_cases h : a = '\n'
    · subst h
      refine ⟨[], s :: ss, by simp [splitNl, hs], List.nil_prefix, ?_⟩
      intro x hx
      rcases List.mem_cons.mp hx with rfl | hx
      · exact List.infix_cons (infix_of_pref hpre)
      · exact List.infix_cons (hinf x hx)
    · refine ⟨a :: s, ss, ?_, ?_, ?_⟩
      · simp [splitNl, if_neg h, hs]
      · exact List.cons_prefix_cons.mpr ⟨rfl, hpre⟩
      · intro x hx
        exact List.infix_cons (hinf x hx)

/-- Every segment of a split is a contiguous span of the input. -/
theorem infix_of_mem_splitNl {c s : List Char} (h : s ∈ splitNl c) :
    s <:+: c := by
  obtain ⟨s0, ss, hs, hpre, hinf⟩ := splitNl_head_tail c
  rw [hs] at h
  rcases List.mem_cons.mp h with rfl | h
  · exact infix_of_pref hpre
  · exact hinf s h

/-- Stripping a carriage return keeps the line inside the original text. -/
theorem stripCR_infix_self (l : List Char) : stripCR l <:+: l := by
  unfold stripCR
  split
  · have h : l.dropLast <+: l := by
      rw [List.dropLast_eq_take]
      exact List.take_prefix _ _
    exact infix_of_pref h
  · exact List.infix_refl l

/-- Every line of a document is a contiguous span of the document. -/
theorem infix_of_mem_lines {c l : List Char} (h : l ∈ lines c) : l <:+: c := by
  obtain ⟨s, hg⟩ : ∃ s, (splitNl c).getLast? = some s := by
    cases hgg : (splitNl c).getLast? with
    | none => exact absurd (List.getLast?_eq_none_iff.mp hgg) (splitNl_ne_nil c)
    | some s => exact ⟨s, rfl⟩
  obtain ⟨L, hL⟩ := List.getLast?_eq_some_iff.mp hg
  have hlines : lines c
      = if s = [] then L.map stripCR else L.map stripCR ++ [s] := by
    simp [lines, hL, List.getLast?_concat, List.dropLast_concat]
  rw [hlines] at h
  have hmem : ∀ x ∈ L.map stripCR, x <:+: c := by
    intro x hx
    obtain ⟨y, hy, rfl⟩ := List.mem_map.mp hx
    have hy' : y ∈ splitNl c := by
      rw [hL]
      exact List.mem_append.mpr (Or.inl hy)
    exact (stripCR_infix_self y).trans (infix_of_mem_splitNl hy')
  by_cases hs : s = []
  · rw [if_pos hs] at h
    exact hmem l h
  · rw [if_neg hs] at h
    rcases List.mem_append.mp h with h' | h'
    · exact hmem l h'
    · have hls : l = s := by simpa using h'
      rw [hls]
      apply infix_of_mem_splitNl
      rw [hL]
      exact List.mem_append_right _ (by simp)

/-! Main theorems, following the specification's testable properties. -/

/-- C1: for every query and contents, `search` returns exactly the lines
of `contents` that contain the query as an exact, case-sensitive
contiguous substring, each returned line being a line of `contents`, in
the same relative order (the result is the filter of the lines by the
substring relation, hence a sublist of the lines). -/
theorem search_exactly_matching_lines (q c : List Char) :
    search q c = (lines c).filter (fun l => decide (q <:+: l)) ∧
    (search q c).Sublist (lines c) := by
  constructor
  · unfold search
    apply List.filter_congr
    intro l _
    rw [containsSub_eq_decide]
  · exact List.filter_sublist _

/-- C2: every line returned by `search_case_insensitive` is a line of
`contents` in its original casing, the lowercasing of the line contains
the lowercased query, order is preserved, and case folding enters only
through the matching decision (the result is the filter of the original
lines by lowercased containment, hence a sublist of the original lines). -/
theorem sci_matches_lowercased (q c : List Char) :
    search_case_insensitive q c
      = (lines c).filter (fun l => decide (toLowercase q <:+: toLowercase l)) ∧
    (search_case_insensitive q c).Sublist (lines c) := by
  constructor
  · simp only [search_case_insensitive]
    apply List.filter_congr
    intro l _
    rw [containsSub_eq_decide]
  · exact List.filter_sublist _

/-- C3: after discarding the leading program-name element, `Config.new`
fails naming the query when no argument remains and naming the file name
when exactly one remains; with two or more it succeeds, binding the first
to the query and the second to the file path. -/
theorem config_new_arguments (args : List (List Char))
    (env : String → Option OsValue) :
    (args.tail = [] → Config.new args env = .error "Didn't get a query string") ∧
    (∀ q, args.tail = [q] → Config.new args env = .error "Didn't get a file name") ∧
    (∀ q f rest, args.tail = q :: f :: rest →
      ∃ cfg, Config.new args env = .ok cfg ∧ cfg.query = q ∧ cfg.filename = f) := by
  refine ⟨?_, ?_, ?_⟩
  · intro h
    simp [Config.new, h]
  · intro q h
    simp [Config.new, h]
  · intro q f rest h
    exact ⟨⟨q, f, exceptIsErr (envVar env "CASE_INSENSITIVE")⟩,
      by simp [Config.new, h], rfl, rfl⟩

/-- Witness for C3 at concrete argument lists. -/
theorem config_new_arguments_witness :
    Config.new [['p']] (fun _ => none) = .error "Didn't get a query string" ∧
    Config.new [['p'], ['q']] (fun _ => none) = .error "Didn't get a file name" ∧
    ∃ cfg, Config.new [['p'], ['q'], ['f']] (fun _ => none) = .ok cfg ∧
      cfg.query = ['q'] ∧ cfg.filename = ['f'] :=
  ⟨(config_new_arguments [['p']] (fun _ => none)).1 rfl,
    (config_new_arguments [['p'], ['q']] (fun _ => none)).2.1 ['q'] rfl,
    (config_new_arguments [['p'], ['q'], ['f']] (fun _ => none)).2.2
      ['q'] ['f'] [] rfl⟩

/-- C4: with enough arguments, `Config.new` succeeds and the resulting
configuration is case-insensitive exactly when the variable named
CASE_INSENSITIVE is present in the environment, whatever its value
(including the empty string); the hypothesis restricts attention to
environments whose value for that name, if any, is valid Unicode text,
which is how the specification models the environment. -/
theorem case_sensitive_iff_env_absent (p q f : List Char)
    (rest : List (List Char)) (env : String → Option OsValue)
    (henv : env "CASE_INSENSITIVE" ≠ some OsValue.nonUnicode) :
    ∃ cfg, Config.new (p :: q :: f :: rest) env = .ok cfg ∧
      (cfg.case_sensitive = false ↔ env "CASE_INSENSITIVE" ≠ none) := by
  refine ⟨⟨q, f, exceptIsErr (envVar env "CASE_INSENSITIVE")⟩,
    by simp [Config.new], ?_⟩
  cases hv : env "CASE_INSENSITIVE" with
  | none => simp [envVar, hv, exceptIsErr]
  | some v =>
    cases v with
    | unicode s => simp [envVar, hv, exceptIsErr]
    | nonUnicode => exact absurd hv henv

/-- Witness for C4 with the variable present with an empty value. -/
theorem case_sensitive_iff_env_absent_witness :
    ∃ cfg, Config.new [['p'], ['q'], ['f']]
        (fun _ => some (OsValue.unicode [])) = .ok cfg ∧
      (cfg.case_sensitive = false ↔
        (fun (_ : String) => some (OsValue.unicode [])) "CASE_INSENSITIVE" ≠ none) :=
  case_sensitive_iff_env_absent ['p'] ['q'] ['f'] []
    (fun _ => some (OsValue.unicode [])) (by simp)

/-- C5: if reading the configured file fails, `run` returns that very
error (the underlying failure reason is propagated, not suppressed) and
prints nothing: no partial results precede the error. -/
theorem run_propagates_read_error (fs : List Char → Except String (List Char))
    (config : Config) (e : String) (h : fs config.filename = .error e) :
    run fs config = (.error e, []) := by
  simp [run, h]

/-- Witness for C5 on a file system where the file is missing. -/
theorem run_propagates_read_error_witness :
    run (fun _ => .error "No such file or directory") ⟨['q'], ['f'], true⟩
      = (.error "No such file or directory", []) :=
  run_propagates_read_error (fun _ => .error "No such file or directory")
    ⟨['q'], ['f'], true⟩ "No such file or directory" rfl

/-- C6: the empty query matches every line, so both operations return the
full line sequence; and on empty contents both operations return the
empty sequence for every query. -/
theorem empty_query_and_empty_contents (q c : List Char) :
    search [] c = lines c ∧
    search_case_insensitive [] c = lines c ∧
    search q [] = [] ∧
    search_case_insensitive q [] = [] := by
  have hnil : lines ([] : List Char) = [] := by decide
  refine ⟨?_, ?_, ?_, ?_⟩
  · unfold search
    exact List.filter_eq_self.mpr (fun l _ => containsSub_nil_true l)
  · have h0 : toLowercase [] = [] := rfl
    simp only [search_case_insensitive, h0]
    exact List.filter_eq_self.mpr (fun l _ => containsSub_nil_true _)
  · simp [search, hnil]
  · simp [search_case_insensitive, hnil]

/-- C7, counterexample: the claimed equation fails at two contents not
ending in a newline. The empty document has no lines while a lone newline
is one empty line, which the empty query matches; and a document ending
in a bare carriage return keeps it in its final line, while appending a
newline turns it into a line ending that is stripped, so a query of one
carriage return matches before appending but not after. -/
theorem trailing_newline_counterexample :
    ((([] : List Char).getLast? ≠ some '\n') ∧
      search [] ([] : List Char) ≠ search [] (([] : List Char) ++ ['\n'])) ∧
    ((['b', 'a', 'z', '\r'].getLast? ≠ some '\n') ∧
      search ['\r'] ['b', 'a', 'z', '\r']
        ≠ search ['\r'] (['b', 'a', 'z', '\r'] ++ ['\n'])) := by
  decide

/-- C7, amended: a final line not terminated by a newline is still a line
(a nonempty newline-free document is exactly one line, kept verbatim),
and for every NONEMPTY contents ending in NEITHER a newline NOR a
carriage return, appending a trailing newline changes the result of
neither search operation. -/
theorem trailing_newline_irrelevant (q c : List Char) (hne : c ≠ [])
    (hlast : c.getLast? ≠ some '\n') (hcr : c.getLast? ≠ some '\r') :
    ('\n' ∉ c → lines c = [c]) ∧
    search q (c ++ ['\n']) = search q c ∧
    search_case_insensitive q (c ++ ['\n']) = search_case_insensitive q c := by
  have hl := lines_append_newline c hne hlast hcr
  exact ⟨fun hnl => lines_of_no_newline c hne hnl,
    by simp [search, hl], by simp [search_case_insensitive, hl]⟩

/-- Witness for the amended C7 on a concrete two-character document. -/
theorem trailing_newline_irrelevant_witness :
    ('\n' ∉ ['a', 'b'] → lines ['a', 'b'] = [['a', 'b']]) ∧
    search ['a'] (['a', 'b'] ++ ['\n']) = search ['a'] ['a', 'b'] ∧
    search_case_insensitive ['a'] (['a', 'b'] ++ ['\n'])
      = search_case_insensitive ['a'] ['a', 'b'] :=
  trailing_newline_irrelevant ['a'] ['a', 'b'] (by decide) (by decide)
    (by decide)

/-- C8: both search operations are pure functions of their arguments:
equal inputs give equal output sequences, with no hidden state. -/
theorem search_deterministic (q q' c c' : List Char) (hq : q = q')
    (hc : c = c') :
    search q c = search q' c' ∧
    search_case_insensitive q c = search_case_insensitive q' c' := by
  subst hq
  subst hc
  exact ⟨rfl, rfl⟩

/-- Witness for C8 at concrete inputs. -/
theorem search_deterministic_witness :
    search ['a'] ['a', 'b'] = search ['a'] ['a', 'b'] ∧
    search_case_insensitive ['a'] ['a', 'b']
      = search_case_insensitive ['a'] ['a', 'b'] :=
  search_deterministic ['a'] ['a'] ['a', 'b'] ['a', 'b'] rfl rfl

/-- C9: when CASE_INSENSITIVE is present but its value is not valid
Unicode, `env::var` errors, so the configuration keeps
`case_sensitive = true`: presence alone does not disable case
sensitivity. -/
theorem nonunicode_env_keeps_case_sensitive (p q f : List Char)
    (rest : List (List Char)) (env : String → Option OsValue)
    (henv : env "CASE_INSENSITIVE" = some OsValue.nonUnicode) :
    Config.new (p :: q :: f :: rest) env = .ok ⟨q, f, true⟩ := by
  simp [Config.new, envVar, henv, exceptIsErr]

/-- Witness for C9 on an environment holding a non-Unicode value. -/
theorem nonunicode_env_keeps_case_sensitive_witness :
    Config.new [['p'], ['q'], ['f']] (fun _ => some OsValue.nonUnicode)
      = .ok ⟨['q'], ['f'], true⟩ :=
  nonunicode_env_keeps_case_sensitive ['p'] ['q'] ['f'] []
    (fun _ => some OsValue.nonUnicode) rfl

/-- C10: every line either operation returns is a contiguous span of the
original contents (the shallow rendering of a borrowed slice), and the
case-insensitive operation returns original-casing lines of the document,
its lowercased copies serving only the matching decision. -/
theorem results_are_spans_of_contents (q c l : List Char) :
    (l ∈ search q c → l <:+: c) ∧
    (l ∈ search_case_insensitive q c → l <:+: c ∧ l ∈ lines c) := by
  constructor
  · intro h
    unfold search at h
    exact infix_of_mem_lines (List.mem_of_mem_filter h)
  · intro h
    simp only [search_case_insensitive] at h
    have hm := List.mem_of_mem_filter h
    exact ⟨infix_of_mem_lines hm, hm⟩

/-- Witness for C10 on a concrete document. -/
theorem results_are_spans_of_contents_witness :
    (['a', 'b'] <:+: ['a', 'b']) ∧
    (['a', 'b'] <:+: ['a', 'b'] ∧ ['a', 'b'] ∈ lines ['a', 'b']) :=
  ⟨(results_are_spans_of_contents ['a'] ['a', 'b'] ['a', 'b']).1 (by decide),
    (results_are_spans_of_contents ['B'] ['a', 'b'] ['a', 'b']).2 (by decide)⟩

/-! Concrete scenarios from the specification's test list. -/

/-- Scenario 1 of the specification: the capitalized Duct line is
excluded by the case-sensitive search. -/
theorem scenario_case_sensitive :
    search ("duct".toList)
        ("Rust:\nsafe, fast, productive.\nPick three.\nDuct tape.".toList)
      = ["safe, fast, productive.".toList] := by
  decide

/-- Scenario 2 of the specification: the case-insensitive search returns
the original-casing lines. -/
theorem scenario_case_insensitive :
    search_case_insensitive ("rUsT".toList)
        ("Rust:\nsafe, fast, productive.\nPick three.\nTrust me.".toList)
      = ["Rust:".toList, "Trust me.".toList] := by
  decide

end Minigrep
